import Mathlib

/-!
Verification of the tinystl intrusive AVL tree core
(src/include/tinystl/avl_tree.h).

The pointer-based node structure is shallowly embedded two ways:

* a functional binary tree `Tree` carrying the stored `mHeight` field at
  every node, over which the tree-level operations (`insert_unique`,
  `insert_or_replace`, `insert_multi`, `erase`, `find`, `clear`) are
  translated; the upward `avl_node::rebalance` walk over parent pointers
  becomes a per-level `step` applied while the recursion unwinds, with a
  `done` flag modelling the loop's early `break`;
* an explicit store of numbered node records (`Store`, further below) for
  the operations that dereference parent pointers directly
  (`avl_node::next`, `avl_node::prev`, `avl_tree::clear_impl`, and the
  iterator increment / decrement).

Values are `Int` and the ordering relation is `<`, matching the
`std::less` default comparator.
-/

namespace Tinystl

/-- A subtree of linked `avl_node`s: left child, embedded value, the stored
`mHeight` field, right child.  `nil` is a null child pointer. -/
inductive Tree : Type where
  | nil : Tree
  | node : Tree → Int → Nat → Tree → Tree
deriving DecidableEq

/-- Stored height of a possibly absent subtree: `node->height()` with the
convention that a null pointer contributes 0. -/
def hgt : Tree → Nat
  | .nil => 0
  | .node _ _ h _ => h

/-- In-order value sequence of a subtree. -/
def toList : Tree → List Int
  | .nil => []
  | .node l v _ r => toList l ++ v :: toList r

/-- Embeds `avl_node::fix_left` on a node with children `l`, `r` and (already
updated) stored height `h`: if `r`'s left subtree is strictly taller than
its right subtree first `rotate_right(r)` (updating the heights of the two
moved nodes), then `rotate_left(this)` and update the heights of the two
moved nodes. -/
def fix_left (l : Tree) (v : Int) (h : Nat) (r : Tree) : Tree :=
  let r2 : Tree :=
    match r with
    | .nil => .nil
    | .node rl rv rh rr =>
      if hgt rl > hgt rr then
        match rl with
        | .nil => .node rl rv rh rr
        | .node a xv _ b =>
          let down : Tree := .node b rv (max (hgt b) (hgt rr) + 1) rr
          .node a xv (max (hgt a) (hgt down) + 1) down
      else .node rl rv rh rr
  match r2 with
  | .nil => .node l v h .nil
  | .node m rv2 _ c =>
    let dl : Tree := .node l v (max (hgt l) (hgt m) + 1) m
    .node dl rv2 (max (hgt dl) (hgt c) + 1) c

/-- Embeds `avl_node::fix_right`, the mirror image of `fix_left`. -/
def fix_right (l : Tree) (v : Int) (h : Nat) (r : Tree) : Tree :=
  let l2 : Tree :=
    match l with
    | .nil => .nil
    | .node ll lv lh lr =>
      if hgt ll < hgt lr then
        match lr with
        | .nil => .node ll lv lh lr
        | .node c yv _ d =>
          let down : Tree := .node ll lv (max (hgt ll) (hgt c) + 1) c
          .node down yv (max (hgt down) (hgt d) + 1) d
      else .node ll lv lh lr
  match l2 with
  | .nil => .node .nil v h r
  | .node a lv2 _ m =>
    let dr : Tree := .node m v (max (hgt m) (hgt r) + 1) r
    .node a lv2 (max (hgt a) (hgt dr) + 1) dr

/-- One iteration of the `avl_node::rebalance` loop, at a node with
children `l`, `r`, stored height `h`; `done = true` records that the loop
already hit `break` strictly below this node, in which case the node is
left untouched.  Otherwise the height is recomputed; if it equals the
stored height the loop breaks (`done := true`); otherwise the new height
is stored and a `fix_left` / `fix_right` fires when the child heights
differ by two or more. -/
def step (l : Tree) (w : Int) (h : Nat) (r : Tree) (done : Bool) : Tree × Bool :=
  if done then (.node l w h r, true)
  else
    let hl := hgt l
    let hr := hgt r
    let nh := max hl hr + 1
    if h = nh then (.node l w h r, true)
    else if (hl : Int) - (hr : Int) ≤ -2 then (fix_left l w nh r, false)
    else if (hl : Int) - (hr : Int) ≥ 2 then (fix_right l w nh r, false)
    else (.node l w nh r, false)

/-- Embeds the `avl_tree::insert_unique` descent: left on `v < w`, right on `w < v`,
`none` on a tie.  A fresh leaf enters with height 1 and the rebalance walk
starts at its parent (the `fix_insert` call), which is the first `step`
applied while the recursion unwinds. -/
def insert_unique_go : Tree → Int → Option (Tree × Bool)
  | .nil, v => some (.node .nil v 1 .nil, false)
  | .node l w h r, v =>
    if v < w then
      (insert_unique_go l v).map (fun p => step p.1 w h r p.2)
    else if w < v then
      (insert_unique_go r v).map (fun p => step l w h p.1 p.2)
    else
      none

/-- The `avl_tree` object: root pointer and `mSize`. -/
structure AvlT where
  root : Tree
  size : Nat
deriving DecidableEq

/-- Embeds `avl_tree::insert_unique`: returns the updated tree and whether the
node was linked; `mSize` is incremented on every linking path. -/
def insert_unique (T : AvlT) (v : Int) : AvlT × Bool :=
  match insert_unique_go T.root v with
  | none => (T, false)
  | some p => (⟨p.1, T.size + 1⟩, true)

/-- Embeds the `avl_tree::insert_or_replace` descent, translated with the comparison
order of the source: the first branch tests `value_comp()(current, node)`
(so it goes LEFT when the incoming value is strictly greater) and the
second tests `value_comp()(node, current)` (RIGHT when strictly less).
On a tie the incoming node takes the links and height of `current`
(`avl_node::replace`) and the victim value is returned; no rebalance runs. -/
def insert_or_replace_go : Tree → Int → Option Int × (Tree × Bool)
  | .nil, v => (none, (.node .nil v 1 .nil, false))
  | .node l w h r, v =>
    if w < v then
      let p := insert_or_replace_go l v
      (p.1, step p.2.1 w h r p.2.2)
    else if v < w then
      let p := insert_or_replace_go r v
      (p.1, step l w h p.2.1 p.2.2)
    else
      (some w, (.node l v h r, true))

/-- Embeds `avl_tree::insert_or_replace`: on an empty tree the node becomes the
root and — unlike every other linking path — `mSize` is NOT incremented
(the source returns before any `mSize += 1`). -/
def insert_or_replace (T : AvlT) (v : Int) : AvlT × Option Int :=
  match T.root with
  | .nil => (⟨.node .nil v 1 .nil, T.size⟩, none)
  | t =>
    let p := insert_or_replace_go t v
    match p.1 with
    | none => (⟨p.2.1, T.size + 1⟩, none)
    | some w => (⟨p.2.1, T.size⟩, some w)

/-- Embeds the `avl_tree::insert_multi` descent: left on `v < w`, right on `w < v`;
on a tie it links into an empty child slot (left first), and when both
children exist it descends into the child with the strictly smaller
stored height (the right child on a height tie). -/
def insert_multi_go : Tree → Int → Tree × Bool
  | .nil, v => (.node .nil v 1 .nil, false)
  | .node l w h r, v =>
    if v < w then
      let p := insert_multi_go l v
      step p.1 w h r p.2
    else if w < v then
      let p := insert_multi_go r v
      step l w h p.1 p.2
    else
      match l, r with
      | .nil, _ => step (.node .nil v 1 .nil) w h r false
      | _, .nil => step l w h (.node .nil v 1 .nil) false
      | _, _ =>
        if hgt l < hgt r then
          let p := insert_multi_go l v
          step p.1 w h r p.2
        else
          let p := insert_multi_go r v
          step l w h p.1 p.2

/-- Embeds `avl_tree::insert_multi` at tree level: always links, always
increments `mSize`. -/
def insert_multi (T : AvlT) (v : Int) : AvlT :=
  ⟨(insert_multi_go T.root v).1, T.size + 1⟩

/-- The inner loop of the two-child case of `avl_tree::erase`: remove the
left-most node of a (non-null) subtree.  Returns its value, the subtree
with it spliced out (its right child takes its place), and the rebalance
`done` flag: `false` so that the walk starts at the removed node's old
parent — which is the caller. -/
def erase_min : Tree → Int × (Tree × Bool)
  | .nil => (0, (.nil, true))
  | .node .nil w _ r => (w, (r, false))
  | .node (.node a x i b) w h r =>
    let p := erase_min (.node a x i b)
    (p.1, step p.2.1 w h r p.2.2)

/-- Embeds `avl_tree::erase`, locating the node by the same comparisons as
`find`.  Zero/one child: the child (or null) is spliced into the node's
place and the walk starts at the old parent.  Two children: the in-order
successor `s` (left-most node of the right subtree) is spliced out, then
inherits the erased node's left, right and stored height exactly; the
walk starts at `s`'s old parent, or at `s` itself when `s` was the
erased node's direct right child (`erase_min` returning `done = false`
at depth 0 makes the first `step` fire exactly there). -/
def erase_go : Tree → Int → Option (Tree × Bool)
  | .nil, _ => none
  | .node l w h r, v =>
    if v < w then (erase_go l v).map (fun p => step p.1 w h r p.2)
    else if w < v then (erase_go r v).map (fun p => step l w h p.1 p.2)
    else
      match l, r with
      | .nil, _ => some (r, false)
      | _, .nil => some (l, false)
      | _, _ =>
        let p := erase_min r
        some (step l p.1 h p.2.1 p.2.2)

/-- Embeds `avl_tree::erase` at tree level: `mSize` is decremented.  `none`
models the undefined behaviour of erasing a value that is not linked. -/
def erase (T : AvlT) (v : Int) : Option AvlT :=
  (erase_go T.root v).map (fun p => ⟨p.1, T.size - 1⟩)

/-- Embeds `avl_tree::find`: descend left on `value_comp()(value, node)`, right
on `value_comp()(node, value)`, and return the node on a tie; `none` on
falling off the tree. -/
def find : Tree → Int → Option Tree
  | .nil, _ => none
  | .node l w h r, v =>
    if v < w then find l v
    else if w < v then find r v
    else some (.node l w h r)

/-- Embeds `avl_tree::empty` exactly as written in the source:
`return mSize;` converted to `bool`, i.e. true iff `mSize != 0`. -/
def empty (T : AvlT) : Bool := T.size != 0

/-- Embeds `avl_tree::clear` at tree level: a non-empty tree drops its root
reference and resets `mSize` to 0; an empty tree is untouched.  (The
visit callback side is modelled over the node store further below.) -/
def clear (T : AvlT) : AvlT :=
  match T.root with
  | .nil => T
  | _ => ⟨.nil, 0⟩

/-- The AVL shape invariant of the spec: at every node the stored height
is `1 + max` of the children's and the children's heights differ by at
most one. -/
def avlOK : Tree → Bool
  | .nil => true
  | .node l _ h r =>
    avlOK l && avlOK r && (h == max (hgt l) (hgt r) + 1) &&
      decide (hgt l ≤ hgt r + 1) && decide (hgt r ≤ hgt l + 1)

/-- The empty `avl_tree` object. -/
def emptyT : AvlT := ⟨.nil, 0⟩

/-- Fold `insert_unique` over a list of values. -/
def buildU (vs : List Int) : AvlT :=
  vs.foldl (fun T v => (insert_unique T v).1) emptyT

/-- Fold `insert_multi` over a list of values. -/
def buildM (vs : List Int) : AvlT :=
  vs.foldl insert_multi emptyT

/-! ### In-order sequence preservation through rotations and rebalancing -/

lemma toList_fix_left (l : Tree) (v : Int) (h : Nat) (r : Tree) :
    toList (fix_left l v h r) = toList l ++ v :: toList r := by
  cases r with
  | nil => simp [fix_left, toList]
  | node rl rv rh rr =>
    cases rl with
    | nil => simp [fix_left, hgt, toList]
    | node a xv xh b =>
      by_cases hc : hgt (Tree.node a xv xh b) > hgt rr
      · simp [fix_left, hc, toList]
      · simp [fix_left, hc, toList]

lemma toList_fix_right (l : Tree) (v : Int) (h : Nat) (r : Tree) :
    toList (fix_right l v h r) = toList l ++ v :: toList r := by
  cases l with
  | nil => simp [fix_right, toList]
  | node ll lv lh lr =>
    cases lr with
    | nil => simp [fix_right, hgt, toList]
    | node c yv yh d =>
      by_cases hc : hgt ll < hgt (Tree.node c yv yh d)
      · simp [fix_right, hc, toList]
      · simp [fix_right, hc, toList]

lemma toList_step (l : Tree) (w : Int) (h : Nat) (r : Tree) (d : Bool) :
    toList (step l w h r d).1 = toList l ++ w :: toList r := by
  cases d with
  | true => simp [step, toList]
  | false =>
    by_cases h1 : h = max (hgt l) (hgt r) + 1
    · simp [step, h1, toList]
    · by_cases h2 : (hgt l : Int) - (hgt r : Int) ≤ -2
      · simp [step, h1, h2, toList_fix_left]
      · by_cases h3 : (hgt l : Int) - (hgt r : Int) ≥ 2
        · simp [step, h1, h2, h3, toList_fix_right]
        · simp [step, h1, h2, h3, toList]

/-! ### Permutation facts for the insertion variants -/

lemma perm_ins_left {v w : Int} {A B q : List Int} (h : q.Perm (v :: A)) :
    (q ++ w :: B).Perm (v :: (A ++ w :: B)) := by
  have h1 := h.append_right (w :: B)
  simpa using h1

lemma perm_ins_right {v w : Int} {A B q : List Int} (h : q.Perm (v :: B)) :
    (A ++ w :: q).Perm (v :: (A ++ w :: B)) := by
  have h1 : (A ++ w :: q).Perm (A ++ w :: v :: B) := (h.cons w).append_left A
  have h2 : (A ++ w :: v :: B).Perm (A ++ v :: w :: B) :=
    (List.Perm.swap v w B).append_left A
  have h3 : (A ++ v :: w :: B).Perm (v :: (A ++ w :: B)) := List.perm_middle
  exact (h1.trans h2).trans h3

lemma toList_insert_unique_go (t : Tree) (v : Int) :
    ∀ p, insert_unique_go t v = some p → (toList p.1).Perm (v :: toList t) := by
  induction t with
  | nil =>
    intro p hp
    simp [insert_unique_go] at hp
    simp [← hp, toList]
  | node l w h r ihl ihr =>
    intro p hp
    by_cases h1 : v < w
    · simp only [insert_unique_go, if_pos h1] at hp
      rcases Option.map_eq_some'.mp hp with ⟨q, hq, hpq⟩
      subst hpq
      rw [toList_step]
      simpa [toList] using perm_ins_left (w := w) (B := toList r) (ihl q hq)
    · by_cases h2 : w < v
      · simp only [insert_unique_go, if_neg h1, if_pos h2] at hp
        rcases Option.map_eq_some'.mp hp with ⟨q, hq, hpq⟩
        subst hpq
        rw [toList_step]
        simpa [toList] using perm_ins_right (w := w) (A := toList l) (ihr q hq)
      · simp [insert_unique_go, if_neg h1, if_neg h2] at hp

lemma toList_insert_multi_go (t : Tree) (v : Int) :
    (toList (insert_multi_go t v).1).Perm (v :: toList t) := by
  induction t with
  | nil => simp [insert_multi_go, toList]
  | node l w h r ihl ihr =>
    by_cases h1 : v < w
    · simp only [insert_multi_go, if_pos h1]
      rw [toList_step]
      simpa [toList] using perm_ins_left (w := w) (B := toList r) ihl
    · by_cases h2 : w < v
      · simp only [insert_multi_go, if_neg h1, if_pos h2]
        rw [toList_step]
        simpa [toList] using perm_ins_right (w := w) (A := toList l) ihr
      · cases l with
        | nil =>
          simp only [insert_multi_go, if_neg h1, if_neg h2]
          rw [toList_step]
          simp [toList]
        | node la lv lh lb =>
          cases r with
          | nil =>
            simp only [insert_multi_go, if_neg h1, if_neg h2]
            rw [toList_step]
            have h0 : (toList (Tree.node .nil v 1 .nil)).Perm (v :: ([] : List Int)) := by
              simp [toList]
            simpa [toList] using
              perm_ins_right (w := w) (A := toList (Tree.node la lv lh lb)) h0
          | node ra rv rh rb =>
            by_cases h3 : hgt (Tree.node la lv lh lb) < hgt (Tree.node ra rv rh rb)
            · simp only [insert_multi_go, if_neg h1, if_neg h2, if_pos h3]
              rw [toList_step]
              simpa [toList] using
                perm_ins_left (w := w) (B := toList (Tree.node ra rv rh rb)) ihl
            · simp only [insert_multi_go, if_neg h1, if_neg h2, if_neg h3]
              rw [toList_step]
              simpa [toList] using
                perm_ins_right (w := w) (A := toList (Tree.node la lv lh lb)) ihr

/-! ### Ordering-based lookup and deletion facts -/

lemma pairwise_node {R : Int → Int → Prop} {l r : Tree} {w : Int} {h : Nat} :
    (toList (Tree.node l w h r)).Pairwise R ↔
      (toList l).Pairwise R ∧ (toList r).Pairwise R ∧ (∀ x ∈ toList l, R x w) ∧
      (∀ y ∈ toList r, R w y) ∧ ∀ x ∈ toList l, ∀ y ∈ toList r, R x y := by
  simp only [toList, List.pairwise_append, List.pairwise_cons, List.mem_cons]
  constructor
  · rintro ⟨h1, ⟨h2, h3⟩, h4⟩
    exact ⟨h1, h3, fun x hx => (h4 x hx w (Or.inl rfl)),
      h2, fun x hx y hy => h4 x hx y (Or.inr hy)⟩
  · rintro ⟨h1, h2, h3, h4, h5⟩
    refine ⟨h1, ⟨h4, h2⟩, ?_⟩
    rintro x hx y (rfl | hy)
    · exact h3 x hx
    · exact h5 x hx y hy

lemma toList_ne_nil {t : Tree} (h : t ≠ .nil) : toList t ≠ [] := by
  cases t with
  | nil => exact absurd rfl h
  | node l v hh r => simp [toList]

lemma insert_unique_go_eq_none (t : Tree) (v : Int)
    (hs : (toList t).Pairwise (· ≤ ·)) :
    insert_unique_go t v = none ↔ v ∈ toList t := by
  induction t with
  | nil => simp [insert_unique_go, toList]
  | node l w h r ihl ihr =>
    rcases pairwise_node.mp hs with ⟨hl, hr, hlw, hwr, _⟩
    by_cases h1 : v < w
    · have hnr : v ∉ toList r := fun hv => by have := hwr v hv; omega
      have hnw : ¬v = w := by omega
      simp [insert_unique_go, if_pos h1, toList, Option.map_eq_none', ihl hl, hnr, hnw]
    · by_cases h2 : w < v
      · have hnl : v ∉ toList l := fun hv => by have := hlw v hv; omega
        have hnw : ¬v = w := by omega
        simp [insert_unique_go, if_neg h1, if_pos h2, toList, Option.map_eq_none',
          ihr hr, hnl, hnw]
      · have hvw : v = w := by omega
        simp [insert_unique_go, if_neg h1, if_neg h2, toList, hvw]

lemma find_val : ∀ (t : Tree) (v : Int) (l2 : Tree) (w2 : Int) (h2 : Nat) (r2 : Tree),
    find t v = some (.node l2 w2 h2 r2) → w2 = v := by
  intro t
  induction t with
  | nil =>
    intro v l2 w2 h2 r2 hf
    simp [find] at hf
  | node l w h r ihl ihr =>
    intro v l2 w2 h2 r2 hf
    by_cases hc1 : v < w
    · exact ihl v l2 w2 h2 r2 (by simpa [find, if_pos hc1] using hf)
    · by_cases hc2 : w < v
      · exact ihr v l2 w2 h2 r2 (by simpa [find, if_neg hc1, if_pos hc2] using hf)
      · simp [find, if_neg hc1, if_neg hc2] at hf
        omega

lemma find_isSome_mem : ∀ (t : Tree) (v : Int),
    (find t v).isSome = true → v ∈ toList t := by
  intro t
  induction t with
  | nil => intro v hf; simp [find] at hf
  | node l w h r ihl ihr =>
    intro v hf
    by_cases h1 : v < w
    · have := ihl v (by simpa [find, if_pos h1] using hf)
      simp [toList, this]
    · by_cases h2 : w < v
      · have := ihr v (by simpa [find, if_neg h1, if_pos h2] using hf)
        simp [toList, this]
      · have hvw : v = w := by omega
        simp [toList, hvw]

lemma mem_find_isSome : ∀ (t : Tree) (v : Int),
    (toList t).Pairwise (· ≤ ·) → v ∈ toList t → (find t v).isSome = true := by
  intro t
  induction t with
  | nil => intro v _ hv; simp [toList] at hv
  | node l w h r ihl ihr =>
    intro v hs hv
    rcases pairwise_node.mp hs with ⟨hl, hr, hlw, hwr, _⟩
    by_cases h1 : v < w
    · have hvl : v ∈ toList l := by
        rcases (by simpa [toList] using hv : v ∈ toList l ∨ v = w ∨ v ∈ toList r) with
          h | h | h
        · exact h
        · omega
        · exact absurd (hwr v h) (by omega)
      simpa [find, if_pos h1] using ihl v hl hvl
    · by_cases h2 : w < v
      · have hvr : v ∈ toList r := by
          rcases (by simpa [toList] using hv : v ∈ toList l ∨ v = w ∨ v ∈ toList r) with
            h | h | h
          · exact absurd (hlw v h) (by omega)
          · omega
          · exact h
        simpa [find, if_neg h1, if_pos h2] using ihr v hr hvr
      · simp [find, if_neg h1, if_neg h2]

lemma find_eq_none_of_not_mem {t : Tree} {v : Int}
    (hv : v ∉ toList t) : find t v = none := by
  cases hf : find t v with
  | none => rfl
  | some st =>
    exact absurd (find_isSome_mem t v (by simp [hf])) hv

lemma toList_erase_min : ∀ (t : Tree), t ≠ .nil →
    toList t = (erase_min t).1 :: toList (erase_min t).2.1 := by
  intro t
  induction t with
  | nil => intro h; exact absurd rfl h
  | node l w h r ihl ihr =>
    intro _
    cases l with
    | nil => simp [erase_min, toList]
    | node a x i b =>
      have hne : Tree.node a x i b ≠ .nil := by simp
      have hL := ihl hne
      simp only [erase_min]
      rw [toList_step]
      conv_lhs => rw [toList]
      rw [hL]
      simp

lemma erase_go_spec : ∀ (t : Tree) (v : Int),
    (toList t).Pairwise (· < ·) → v ∈ toList t →
    ∃ p, erase_go t v = some p ∧ toList p.1 = (toList t).erase v := by
  intro t
  induction t with
  | nil => intro v _ hv; simp [toList] at hv
  | node l w h r ihl ihr =>
    intro v hs hv
    rcases pairwise_node.mp hs with ⟨hl, hr, hlw, hwr, _⟩
    by_cases h1 : v < w
    · have hvl : v ∈ toList l := by
        rcases (by simpa [toList] using hv : v ∈ toList l ∨ v = w ∨ v ∈ toList r) with
          h | h | h
        · exact h
        · omega
        · exact absurd (hwr v h) (by omega)
      rcases ihl v hl hvl with ⟨q, hq, hql⟩
      have hR : (toList (Tree.node l w h r)).erase v =
          (toList l).erase v ++ w :: toList r := by
        simp only [toList]
        exact List.erase_append_left _ hvl
      refine ⟨step q.1 w h r q.2, by simp [erase_go, if_pos h1, hq], ?_⟩
      rw [toList_step, hql, hR]
    · by_cases h2 : w < v
      · have hvr : v ∈ toList r := by
          rcases (by simpa [toList] using hv : v ∈ toList l ∨ v = w ∨ v ∈ toList r) with
            h | h | h
          · exact absurd (hlw v h) (by omega)
          · omega
          · exact h
        rcases ihr v hr hvr with ⟨q, hq, hqr⟩
        have hnl : v ∉ toList l := fun hx => absurd (hlw v hx) (by omega)
        have hbv : ¬((w == v) = true) := by
          simp only [beq_iff_eq]
          omega
        have hR : (toList (Tree.node l w h r)).erase v =
            toList l ++ w :: (toList r).erase v := by
          simp only [toList]
          rw [List.erase_append_right _ hnl, List.erase_cons_tail hbv]
        refine ⟨step l w h q.1 q.2, by simp [erase_go, if_neg h1, if_pos h2, hq], ?_⟩
        rw [toList_step, hqr, hR]
      · have hvw : v = w := by omega
        subst hvw
        have hnl : v ∉ toList l := fun hx => absurd (hlw v hx) (by omega)
        cases l with
        | nil =>
          refine ⟨(r, false), by simp [erase_go, if_neg h1, if_neg h2], ?_⟩
          simp [toList]
        | node la lv lh lb =>
          cases r with
          | nil =>
            have hsplit : toList (Tree.node (Tree.node la lv lh lb) v h .nil) =
                toList (Tree.node la lv lh lb) ++ v :: toList Tree.nil := by
              simp [toList]
            have hR : (toList (Tree.node (Tree.node la lv lh lb) v h .nil)).erase v =
                toList (Tree.node la lv lh lb) := by
              rw [hsplit, List.erase_append_right _ hnl]
              simp [toList]
            refine ⟨(Tree.node la lv lh lb, false),
              by simp [erase_go, if_neg h1, if_neg h2], ?_⟩
            rw [hR]
          | node ra rv rh rb =>
            have hrm := toList_erase_min (Tree.node ra rv rh rb) (by simp)
            have hsplit : toList (Tree.node (Tree.node la lv lh lb) v h
                (Tree.node ra rv rh rb)) =
                toList (Tree.node la lv lh lb) ++ v :: toList (Tree.node ra rv rh rb) := by
              simp [toList]
            have hR : (toList (Tree.node (Tree.node la lv lh lb) v h
                (Tree.node ra rv rh rb))).erase v =
                toList (Tree.node la lv lh lb) ++ toList (Tree.node ra rv rh rb) := by
              rw [hsplit, List.erase_append_right _ hnl]
              simp
            refine ⟨step (Tree.node la lv lh lb)
                (erase_min (Tree.node ra rv rh rb)).1 h
                (erase_min (Tree.node ra rv rh rb)).2.1
                (erase_min (Tree.node ra rv rh rb)).2.2,
              by simp [erase_go, if_neg h1, if_neg h2], ?_⟩
            rw [toList_step, hR, hrm]

lemma find_filter_gt : ∀ (t : Tree) (v : Int) (l2 : Tree) (w2 : Int) (h2 : Nat) (r2 : Tree),
    (toList t).Pairwise (· < ·) →
    find t v = some (.node l2 w2 h2 r2) → r2 ≠ .nil →
    ((toList t).filter (fun x => decide (v < x))).head? = (toList r2).head? := by
  intro t
  induction t with
  | nil =>
    intro v l2 w2 h2 r2 _ hf _
    simp [find] at hf
  | node l w h r ihl ihr =>
    intro v l2 w2 h2 r2 hs hf hr2
    rcases pairwise_node.mp hs with ⟨hl, hr, hlw, hwr, _⟩
    by_cases hc1 : v < w
    · have hf2 : find l v = some (.node l2 w2 h2 r2) := by
        simpa [find, if_pos hc1] using hf
      have ihx := ihl v l2 w2 h2 r2 hl hf2 hr2
      have hkeep : ∀ y ∈ w :: toList r, (fun x => decide (v < x)) y = true := by
        intro y hy
        rcases List.mem_cons.mp hy with rfl | hy2
        · simp [hc1]
        · have := hwr y hy2
          simp only [decide_eq_true_eq]
          omega
      have hsplit : (toList (Tree.node l w h r)).filter (fun x => decide (v < x)) =
          (toList l).filter (fun x => decide (v < x)) ++ (w :: toList r) := by
        simp only [toList, List.filter_append]
        congr 1
        exact List.filter_eq_self.mpr hkeep
      rw [hsplit, List.head?_append, ihx]
      cases ho : (toList r2).head? with
      | none =>
        exact absurd (List.head?_eq_none_iff.mp ho) (toList_ne_nil hr2)
      | some y => simp [Option.or]
    · by_cases hc2 : w < v
      · have hf2 : find r v = some (.node l2 w2 h2 r2) := by
          simpa [find, if_neg hc1, if_pos hc2] using hf
        have ihx := ihr v l2 w2 h2 r2 hr hf2 hr2
        have hdropl : (toList l).filter (fun x => decide (v < x)) = [] := by
          apply List.filter_eq_nil_iff.mpr
          intro a ha
          have := hlw a ha
          simp only [decide_eq_true_eq]
          omega
        have hsplit : (toList (Tree.node l w h r)).filter (fun x => decide (v < x)) =
            (toList r).filter (fun x => decide (v < x)) := by
          simp only [toList, List.filter_append, List.filter_cons]
          rw [hdropl]
          have hwv : (decide (v < w)) = false := by
            simp only [decide_eq_false_iff_not]
            omega
          simp [hwv]
        rw [hsplit, ihx]
      · have heq := hf
        simp only [find, if_neg hc1, if_neg hc2, Option.some.injEq, Tree.node.injEq] at heq
        obtain ⟨e1, e2, e3, e4⟩ := heq
        have hdropl : (toList l).filter (fun x => decide (v < x)) = [] := by
          apply List.filter_eq_nil_iff.mpr
          intro a ha
          have := hlw a ha
          simp only [decide_eq_true_eq]
          omega
        have hkeepr : (toList r).filter (fun x => decide (v < x)) = toList r := by
          apply List.filter_eq_self.mpr
          intro y hy
          have := hwr y hy
          simp only [decide_eq_true_eq]
          omega
        have hsplit : (toList (Tree.node l w h r)).filter (fun x => decide (v < x)) =
            toList r := by
          simp only [toList, List.filter_append, List.filter_cons]
          rw [hdropl, hkeepr]
          have hwv : (decide (v < w)) = false := by
            simp only [decide_eq_false_iff_not]
            omega
          simp [hwv]
        rw [hsplit, e4]

/-! ### Claim theorems -/

lemma mem_of_head_eq {a : Int} {l : List Int} (h : l.head? = some a) : a ∈ l := by
  cases l with
  | nil => simp at h
  | cons b bs =>
    have hba : b = a := by simpa using h
    simp [hba]

/-- Claim C1 (refuted by the code): the spec says all three insertion
variants descend left on strictly-less and right on strictly-greater, so
that `find` locates a freshly linked node.  `insert_or_replace` swaps the
comparison operands: starting from a BST-ordered singleton tree holding 5,
inserting the fresh value 3 links it as the RIGHT child (in-order sequence
`[5, 3]`), and `find 3` then returns not-found while `find 5` still
succeeds. -/
theorem claim_C1 :
    (toList ((insert_or_replace emptyT 5).1).root).Pairwise (· < ·) ∧
    toList (insert_or_replace ((insert_or_replace emptyT 5).1) 3).1.root = [5, 3] ∧
    find (insert_or_replace ((insert_or_replace emptyT 5).1) 3).1.root 3 = none ∧
    (find (insert_or_replace ((insert_or_replace emptyT 5).1) 3).1.root 5).isSome = true := by
  refine ⟨by decide, by decide, by decide, by decide⟩

/-- Claim C2 (refuted by the code): `insert_or_replace` into an empty tree
links the node as root but returns before the `mSize += 1` that every
other linking path performs, so afterwards `size() = 0` while one node is
reachable from the (non-null) root. -/
theorem claim_C2 :
    (insert_or_replace emptyT 5).1.size = 0 ∧
    (toList (insert_or_replace emptyT 5).1.root).length = 1 ∧
    (insert_or_replace emptyT 5).1.root ≠ .nil := by
  refine ⟨by decide, by decide, by decide⟩

/-- Claim C3 (refuted by the code): `empty()` is written `return mSize;`,
which converts `mSize` to `bool`, i.e. it returns TRUE exactly when the
tree is non-empty — the opposite of the claim.  On the empty tree it
returns false; after one `insert_unique` it returns true. -/
theorem claim_C3 :
    empty emptyT = false ∧ toList emptyT.root = [] ∧ emptyT.size = 0 ∧
    empty (buildU [5]) = true ∧ (buildU [5]).size = 1 ∧
    (toList (buildU [5]).root).length = 1 := by
  refine ⟨by decide, by decide, by decide, by decide, by decide, by decide⟩

/-- Claim C4 (refuted by the code): the `rebalance` walk breaks as soon as
the recomputed height equals the stored height, WITHOUT checking the
balance factor (the cited avlmini reference only breaks when additionally
`|diff| <= 1`).  After `insert_unique` of 10, 5, 15, 3 (a valid AVL tree)
and `erase 15`, the walk at the root sees height `max(2,0)+1 = 3` equal to
the stored 3 and stops, leaving the root with child heights 2 and 0 —
an AVL balance violation. -/
theorem claim_C4 :
    avlOK (buildU [10, 5, 15, 3]).root = true ∧
    (erase (buildU [10, 5, 15, 3]) 15).map (fun T => avlOK T.root) = some false ∧
    (erase (buildU [10, 5, 15, 3]) 15).map
      (fun T => match T.root with
        | .nil => (0, 0)
        | .node l _ _ r => (hgt l, hgt r)) = some (2, 0) ∧
    (erase (buildU [10, 5, 15, 3]) 15).map (fun T => toList T.root) = some [3, 5, 10] := by
  refine ⟨by decide, by decide, by decide, by decide⟩

/-- Claim C5: erasing a linked node with two children.  The embedded
`erase_go` performs the source splice literally (the in-order successor
`s` — left-most node of the right subtree, which has no left child — is
spliced out, its right child taking its place; `s` then inherits the
erased node's left, right and stored height exactly, and the rebalance
walk starts at `s`'s old parent, or at `s` itself when `s` was the direct
right child).  This theorem proves the observable consequences claimed:
on any BST-ordered tree, erasing a value `v` held by a two-child node
succeeds, removes exactly `v` from the in-order sequence (preserving its
order), decrements `size` by one, makes `find v` fail while every other
stored value remains findable, and the value spliced into the erased
position is the in-order successor of `v` (the head of the right
subtree's in-order sequence, i.e. the least stored value above `v`). -/
theorem claim_C5 (t : Tree) (n : Nat) (v : Int) (l2 : Tree) (w2 : Int) (h2 : Nat) (r2 : Tree)
    (hs : (toList t).Pairwise (· < ·))
    (hf : find t v = some (.node l2 w2 h2 r2))
    (hl2 : l2 ≠ .nil) (hr2 : r2 ≠ .nil) :
    ∃ t2 d, erase_go t v = some (t2, d) ∧
      erase ⟨t, n⟩ v = some ⟨t2, n - 1⟩ ∧
      toList t2 = (toList t).erase v ∧
      (toList t2).Pairwise (· < ·) ∧
      find t2 v = none ∧
      (∀ u, u ∈ toList t → u ≠ v → (find t2 u).isSome = true) ∧
      (toList t2).length + 1 = (toList t).length ∧
      (toList r2).head? = some (erase_min r2).1 ∧
      ((toList t).filter (fun x => decide (v < x))).head? = some (erase_min r2).1 ∧
      (erase_min r2).1 ∈ toList t2 := by
  have hv : v ∈ toList t := find_isSome_mem t v (by simp [hf])
  obtain ⟨p, hp, hpl⟩ := erase_go_spec t v hs hv
  have hnodup : (toList t).Nodup := hs.imp (fun hab => ne_of_lt hab)
  have hsorted2 : (toList p.1).Pairwise (· < ·) := by
    rw [hpl]
    exact List.Pairwise.sublist (List.erase_sublist _ _) hs
  have hvnotin : v ∉ toList p.1 := by
    rw [hpl]
    exact hnodup.not_mem_erase
  have hle2 : (toList p.1).Pairwise (· ≤ ·) := hsorted2.imp (fun hab => le_of_lt hab)
  have hhead : (toList r2).head? = some (erase_min r2).1 := by
    rw [toList_erase_min r2 hr2]
    rfl
  have hfilter := find_filter_gt t v l2 w2 h2 r2 hs hf hr2
  rw [hhead] at hfilter
  have hsmem : (erase_min r2).1 ∈ (toList t).filter (fun x => decide (v < x)) :=
    mem_of_head_eq hfilter
  obtain ⟨hsmem2, hsgt⟩ := List.mem_filter.mp hsmem
  refine ⟨p.1, p.2, hp, ?_, hpl, hsorted2, find_eq_none_of_not_mem hvnotin, ?_, ?_,
    hhead, hfilter, ?_⟩
  · simp [erase, hp]
  · intro u hu hne
    exact mem_find_isSome p.1 u hle2 (by rw [hpl]; exact (hnodup.mem_erase_iff).mpr ⟨hne, hu⟩)
  · have hlen := List.length_erase_of_mem hv
    have hne0 : toList t ≠ [] := List.ne_nil_of_mem hv
    have hpos : 0 < (toList t).length := List.length_pos.mpr hne0
    rw [hpl, hlen]
    omega
  · rw [hpl]
    refine (hnodup.mem_erase_iff).mpr ⟨?_, hsmem2⟩
    have hlt : v < (erase_min r2).1 := by simpa using hsgt
    omega

/-- The left subtree of the root of the tree built by `insert_unique` of
10, 5, 15, 3, 7, 12, 20 — the spec's deletion-correctness scenario. -/
def lC5 : Tree := .node (.node .nil 3 1 .nil) 5 2 (.node .nil 7 1 .nil)

/-- The right subtree of the root of the same scenario tree. -/
def rC5 : Tree := .node (.node .nil 12 1 .nil) 15 2 (.node .nil 20 1 .nil)

/-- The scenario tree itself: root 10 with two children. -/
def tC5 : Tree := .node lC5 10 3 rC5

/-- Witness for C5: the spec's concrete scenario — build
`[10,5,15,3,7,12,20]` with `insert_unique`, then erase the two-child root
value 10. -/
theorem claim_C5_witness :
    (buildU [10, 5, 15, 3, 7, 12, 20]).root = tC5 ∧
    (toList tC5).Pairwise (· < ·) ∧
    find tC5 10 = some (.node lC5 10 3 rC5) ∧
    (∃ t2 d, erase_go tC5 10 = some (t2, d) ∧
      erase ⟨tC5, 7⟩ 10 = some ⟨t2, 7 - 1⟩ ∧
      toList t2 = (toList tC5).erase 10 ∧
      (toList t2).Pairwise (· < ·) ∧
      find t2 10 = none ∧
      (∀ u, u ∈ toList tC5 → u ≠ 10 → (find t2 u).isSome = true) ∧
      (toList t2).length + 1 = (toList tC5).length ∧
      (toList rC5).head? = some (erase_min rC5).1 ∧
      ((toList tC5).filter (fun x => decide ((10 : Int) < x))).head? =
        some (erase_min rC5).1 ∧
      (erase_min rC5).1 ∈ toList t2) :=
  ⟨by decide, by decide, by decide,
    claim_C5 tC5 7 10 lC5 10 3 rC5 (by decide) (by decide) (by decide) (by decide)⟩

/-- Counterexample to C6 as frozen: a tree built by `insert_multi` of 5
twice satisfies the premise (it already contains a node comparing equal
to the incoming value 5), `insert_unique` duly rejects and leaves it
unchanged, but the tree contains TWO nodes comparing equal to 5, not
exactly one. -/
theorem claim_C6_counterexample :
    (5 : Int) ∈ toList (buildM [5, 5]).root ∧
    (toList (buildM [5, 5]).root).Pairwise (· ≤ ·) ∧
    insert_unique (buildM [5, 5]) 5 = (buildM [5, 5], false) ∧
    (toList (buildM [5, 5]).root).count 5 = 2 := by
  refine ⟨by decide, by decide, by decide, by decide⟩

/-- Claim C6, amended: on any tree satisfying the ordering invariant,
`insert_unique` of a value already stored returns false and leaves the
tree object completely unchanged, the tree containing AT LEAST one node
comparing equal to that value (exactly one cannot be guaranteed because
`insert_multi` can have linked duplicates); and on a value comparing
equal to no stored value it links the node, returns true, increments
`size`, and the result then holds exactly one node with that value. -/
theorem claim_C6_amended (T : AvlT) (v : Int)
    (hs : (toList T.root).Pairwise (· ≤ ·)) :
    (v ∈ toList T.root →
      insert_unique T v = (T, false) ∧ 1 ≤ (toList T.root).count v) ∧
    (v ∉ toList T.root →
      ∃ t2, insert_unique T v = (⟨t2, T.size + 1⟩, true) ∧
        (toList t2).count v = 1 ∧ (toList t2).Perm (v :: toList T.root)) := by
  constructor
  · intro hv
    have hnone := (insert_unique_go_eq_none T.root v hs).mpr hv
    exact ⟨by simp [insert_unique, hnone], List.one_le_count_iff.mpr hv⟩
  · intro hv
    have hne : insert_unique_go T.root v ≠ none := fun h0 =>
      hv ((insert_unique_go_eq_none T.root v hs).mp h0)
    cases ho : insert_unique_go T.root v with
    | none => exact absurd ho hne
    | some p =>
      have hperm := toList_insert_unique_go T.root v p ho
      refine ⟨p.1, by simp [insert_unique, ho], ?_, hperm⟩
      rw [hperm.count_eq, List.count_cons_self, List.count_eq_zero_of_not_mem hv]

/-- Witness for the amended C6: tree `[5, 3]`; inserting 3 again is
rejected with the tree unchanged, and inserting the fresh value 4
succeeds. -/
theorem claim_C6_witness :
    ((toList (buildU [5, 3]).root).Pairwise (· ≤ ·)) ∧
    (((3 : Int) ∈ toList (buildU [5, 3]).root →
      insert_unique (buildU [5, 3]) 3 = (buildU [5, 3], false) ∧
      1 ≤ (toList (buildU [5, 3]).root).count 3) ∧
    ((3 : Int) ∉ toList (buildU [5, 3]).root →
      ∃ t2, insert_unique (buildU [5, 3]) 3 = (⟨t2, (buildU [5, 3]).size + 1⟩, true) ∧
        (toList t2).count 3 = 1 ∧ (toList t2).Perm (3 :: toList (buildU [5, 3]).root))) :=
  ⟨by decide, claim_C6_amended (buildU [5, 3]) 3 (by decide)⟩

/-- Claim C7: `insert_multi` never rejects — for EVERY tree and value the
resulting in-order sequence is the old one plus the new value (so linking
always happens and `size` always grows by one); and the spec's concrete
scenario holds: inserting `[5, 3, 5, 8, 5]` into the empty tree yields
`size() = 5` and in-order sequence `[3, 5, 5, 5, 8]` (the third duplicate
descending into the strictly shorter left child, the second going right
on the height tie). -/
theorem claim_C7 :
    (∀ (t : Tree) (v : Int), (toList (insert_multi_go t v).1).Perm (v :: toList t)) ∧
    (∀ (T : AvlT) (v : Int), (insert_multi T v).size = T.size + 1 ∧
      (toList (insert_multi T v).root).length = (toList T.root).length + 1) ∧
    (buildM [5, 3, 5, 8, 5]).size = 5 ∧
    toList (buildM [5, 3, 5, 8, 5]).root = [3, 5, 5, 5, 8] := by
  refine ⟨toList_insert_multi_go, fun T v => ⟨rfl, ?_⟩, by decide, by decide⟩
  have := (toList_insert_multi_go T.root v).length_eq
  simpa [insert_multi] using this

/-! ### Store embedding: parent pointers, next / prev, clear_impl, iterators -/

/-- One `avl_node` record in memory: parent, left and right pointers
(node numbers, `none` = null), the stored height and the embedded value. -/
structure NodeR where
  parent : Option Nat
  left : Option Nat
  right : Option Nat
  hgt : Nat
  val : Int
deriving DecidableEq

/-- The heap of node records, addressed by node number. -/
abbrev Store := List NodeR

/-- Dereference a node pointer. -/
def read (s : Store) (i : Nat) : Option NodeR := s.get? i

/-- A tree of node numbers (with values and stored heights), describing
which linked structure a `Store` holds. -/
inductive ITree : Type where
  | nil : ITree
  | node : ITree → Nat → Int → Nat → ITree → ITree
deriving DecidableEq

/-- Address of a subtree's root, `none` for the null tree. -/
def idxOf : ITree → Option Nat
  | .nil => none
  | .node _ i _ _ _ => some i

/-- Number of nodes. -/
def isize : ITree → Nat
  | .nil => 0
  | .node l _ _ _ r => isize l + 1 + isize r

/-- In-order sequence of node numbers. -/
def inIdx : ITree → List Nat
  | .nil => []
  | .node l i _ _ r => inIdx l ++ i :: inIdx r

/-- Pre-order sequence of node numbers (node, left subtree, right
subtree) — the order of `avl_tree::clear_impl`. -/
def preIdx : ITree → List Nat
  | .nil => []
  | .node l i _ _ r => i :: (preIdx l ++ preIdx r)

/-- In-order sequence of values. -/
def ivals : ITree → List Int
  | .nil => []
  | .node l _ v _ r => ivals l ++ v :: ivals r

/-- Left-most (first in-order) node number; 0 as junk for the null tree. -/
def firstI : ITree → Nat
  | .nil => 0
  | .node .nil i _ _ _ => i
  | .node (.node a j v h b) _ _ _ _ => firstI (.node a j v h b)

/-- Right-most (last in-order) node number; 0 as junk for the null tree. -/
def lastI : ITree → Nat
  | .nil => 0
  | .node _ i _ _ .nil => i
  | .node _ _ _ _ (.node a j v h b) => lastI (.node a j v h b)

/-- Representation predicate `repb s p t`: the store holds exactly the linked structure `t` under
parent pointer `p` — every node record stores its parent, children,
height and value as `t` prescribes. -/
def repb (s : Store) : Option Nat → ITree → Bool
  | _, .nil => true
  | p, .node l i v h r =>
    (read s i == some ⟨p, idxOf l, idxOf r, h, v⟩) &&
      repb s (some i) l && repb s (some i) r

/-- The left-most descent loop inside `avl_node::next`: follow left
pointers until null.  Fueled so the function is total on arbitrary
stores; `none` is fuel exhaustion or a dangling pointer. -/
def lmost (s : Store) : Nat → Nat → Option Nat
  | _, 0 => none
  | i, f + 1 =>
    match read s i with
    | none => none
    | some n =>
      match n.left with
      | none => some i
      | some j => lmost s j f

/-- The right-most descent loop inside `avl_node::prev` (and inside
`operator--` from end). -/
def rmost (s : Store) : Nat → Nat → Option Nat
  | _, 0 => none
  | i, f + 1 =>
    match read s i with
    | none => none
    | some n =>
      match n.right with
      | none => some i
      | some j => rmost s j f

/-- The ancestor loop of `avl_node::next`: repeatedly step to the parent
until the node just left was that parent's LEFT child (successor found)
or the parent is null (no successor).  `some none` models the loop
returning null; `none` is fuel exhaustion. -/
def upnext (s : Store) : Nat → Option Nat → Nat → Option (Option Nat)
  | _, _, 0 => none
  | _, none, _ + 1 => some none
  | last, some c, f + 1 =>
    match read s c with
    | none => none
    | some n => if n.left = some last then some (some c) else upnext s c n.parent f

/-- The ancestor loop of `avl_node::prev`, mirror of `upnext`. -/
def upprev (s : Store) : Nat → Option Nat → Nat → Option (Option Nat)
  | _, _, 0 => none
  | _, none, _ + 1 => some none
  | last, some c, f + 1 =>
    match read s c with
    | none => none
    | some n => if n.right = some last then some (some c) else upprev s c n.parent f

/-- Embeds `avl_node::next`: the left-most node of the right subtree when a
right child exists, otherwise the ancestor walk. -/
def nextIdx (s : Store) (i : Nat) (f : Nat) : Option (Option Nat) :=
  match read s i with
  | none => none
  | some n =>
    match n.right with
    | some j => (lmost s j f).map some
    | none => upnext s i n.parent f

/-- Embeds `avl_node::prev`, mirror of `nextIdx`. -/
def prevIdx (s : Store) (i : Nat) (f : Nat) : Option (Option Nat) :=
  match read s i with
  | none => none
  | some n =>
    match n.left with
    | some j => (rmost s j f).map some
    | none => upprev s i n.parent f

/-- Embeds `avl_tree::clear_impl` over the store: the left and right child
pointers are read into LOCALS first, then the visit callback runs on the
node (and may corrupt that record arbitrarily), then the two recursive
calls use the captured locals.  Returns the mutated store and the visit
order. -/
def clearWalk (visit : Store → Nat → Store) : Store → Nat → Nat → Store × List Nat
  | s, _, 0 => (s, [])
  | s, i, f + 1 =>
    let l := (read s i).bind (fun n => n.left)
    let r := (read s i).bind (fun n => n.right)
    let s1 := visit s i
    let q2 :=
      match l with
      | none => (s1, ([] : List Nat))
      | some j => clearWalk visit s1 j f
    let q3 :=
      match r with
      | none => (q2.1, ([] : List Nat))
      | some j => clearWalk visit q2.1 j f
    (q3.1, i :: (q2.2 ++ q3.2))

/-- Embeds the iterator increment `operator++`: a null (end) iterator is left
unchanged; otherwise step to `next`. -/
def iterInc (s : Store) (cur : Option Nat) (f : Nat) : Option (Option Nat) :=
  match cur with
  | none => some none
  | some i => nextIdx s i f

/-- Embeds the iterator decrement `operator--`: from end, reload the tree's root and
descend right to the maximum (staying at end when the root is null);
otherwise step to `prev`. -/
def iterDec (s : Store) (root : Option Nat) (cur : Option Nat) (f : Nat) :
    Option (Option Nat) :=
  match cur with
  | some i => prevIdx s i f
  | none =>
    match root with
    | none => some none
    | some ri => (rmost s ri f).map some

/-- Walking `prev` repeatedly: the list of node numbers visited when
applying `prev` the given number of times starting from a node. -/
def prevTrace (s : Store) (f : Nat) : Nat → Nat → List Nat
  | i, 0 => [i]
  | i, k + 1 =>
    i :: (match prevIdx s i f with
          | some (some j) => prevTrace s f j k
          | _ => [])

/-! ### Mirror symmetry: prev is next on the left-right-swapped store -/

/-- Swap the left and right pointers of a record. -/
def mirrorR (n : NodeR) : NodeR := ⟨n.parent, n.right, n.left, n.hgt, n.val⟩

/-- Swap left and right throughout the store. -/
def mirrorS (s : Store) : Store := s.map mirrorR

/-- Swap left and right subtrees throughout a tree. -/
def mirrorI : ITree → ITree
  | .nil => .nil
  | .node l i v h r => .node (mirrorI r) i v h (mirrorI l)

lemma read_mirror (s : Store) (i : Nat) :
    read (mirrorS s) i = (read s i).map mirrorR := by
  simp [read, mirrorS, List.get?_map]

lemma idxOf_mirror (t : ITree) : idxOf (mirrorI t) = idxOf t := by
  cases t <;> simp [mirrorI, idxOf]

lemma isize_mirror (t : ITree) : isize (mirrorI t) = isize t := by
  induction t with
  | nil => rfl
  | node l i v h r ihl ihr =>
    simp only [mirrorI, isize, ihl, ihr]
    omega

lemma inIdx_mirror (t : ITree) : inIdx (mirrorI t) = (inIdx t).reverse := by
  induction t with
  | nil => rfl
  | node l i v h r ihl ihr =>
    simp [mirrorI, inIdx, ihl, ihr]

lemma firstI_mirror (t : ITree) : firstI (mirrorI t) = lastI t := by
  induction t with
  | nil => rfl
  | node l i v h r ihl ihr =>
    cases r with
    | nil => simp [mirrorI, firstI, lastI]
    | node rl ri rv rh rr =>
      simp only [mirrorI, firstI, lastI]
      simpa [mirrorI] using ihr

lemma lastI_mirror (t : ITree) : lastI (mirrorI t) = firstI t := by
  induction t with
  | nil => rfl
  | node l i v h r ihl ihr =>
    cases l with
    | nil => simp [mirrorI, firstI, lastI]
    | node ll li lv lh lr =>
      simp only [mirrorI, firstI, lastI]
      simpa [mirrorI] using ihl

lemma repb_mirror (s : Store) : ∀ (t : ITree) (p : Option Nat),
    (repb (mirrorS s) p (mirrorI t) = true) ↔ (repb s p t = true) := by
  intro t
  induction t with
  | nil => intro p; simp [mirrorI, repb]
  | node l i v h r ihl ihr =>
    intro p
    simp only [mirrorI, repb, Bool.and_eq_true, beq_iff_eq, read_mirror, idxOf_mirror,
      ihl, ihr]
    cases hr : read s i with
    | none => simp
    | some n =>
      cases n with
      | mk np nl nr nh nv =>
        simp only [Option.map_some', mirrorR, Option.some.injEq, NodeR.mk.injEq]
        constructor
        · rintro ⟨⟨⟨e1, e2, e3, e4, e5⟩, h1⟩, h2⟩
          exact ⟨⟨⟨e1, e3, e2, e4, e5⟩, h2⟩, h1⟩
        · rintro ⟨⟨⟨e1, e2, e3, e4, e5⟩, h1⟩, h2⟩
          exact ⟨⟨⟨e1, e3, e2, e4, e5⟩, h2⟩, h1⟩

lemma rmost_mirror (s : Store) : ∀ (f i : Nat), rmost s i f = lmost (mirrorS s) i f := by
  intro f
  induction f with
  | zero => intro i; rfl
  | succ f ih =>
    intro i
    cases hr : read s i with
    | none => simp [rmost, lmost, read_mirror, hr]
    | some n =>
      simp only [rmost, lmost, read_mirror, hr, Option.map_some']
      cases hn : n.right with
      | none => simp [mirrorR, hn]
      | some j => simp [mirrorR, hn, ih j]

lemma upprev_mirror (s : Store) : ∀ (f : Nat) (last : Nat) (cur : Option Nat),
    upprev s last cur f = upnext (mirrorS s) last cur f := by
  intro f
  induction f with
  | zero =>
    intro last cur
    cases cur <;> rfl
  | succ f ih =>
    intro last cur
    cases cur with
    | none => rfl
    | some c =>
      cases hr : read s c with
      | none => simp [upprev, upnext, read_mirror, hr]
      | some n =>
        simp only [upprev, upnext, read_mirror, hr, Option.map_some']
        by_cases hc : n.right = some last
        · simp [mirrorR, hc]
        · simp [mirrorR, hc, ih]

lemma prevIdx_mirror (s : Store) (i f : Nat) :
    prevIdx s i f = nextIdx (mirrorS s) i f := by
  cases hr : read s i with
  | none => simp [prevIdx, nextIdx, read_mirror, hr]
  | some n =>
    simp only [prevIdx, nextIdx, read_mirror, hr, Option.map_some']
    cases hn : n.left with
    | none => simp [mirrorR, hn, upprev_mirror]
    | some j => simp [mirrorR, hn, rmost_mirror]

/-! ### Basic facts about represented trees and fueled walks -/

lemma repb_node {s : Store} {p : Option Nat} {l r : ITree} {i : Nat} {v : Int} {h : Nat}
    (hr : repb s p (.node l i v h r) = true) :
    read s i = some ⟨p, idxOf l, idxOf r, h, v⟩ ∧
    repb s (some i) l = true ∧ repb s (some i) r = true := by
  simp only [repb, Bool.and_eq_true, beq_iff_eq] at hr
  exact ⟨hr.1.1, hr.1.2, hr.2⟩

lemma pairwise_inIdx {R : Nat → Nat → Prop} {l r : ITree} {i : Nat} {v : Int} {h : Nat} :
    (inIdx (ITree.node l i v h r)).Pairwise R ↔
      (inIdx l).Pairwise R ∧ (inIdx r).Pairwise R ∧ (∀ x ∈ inIdx l, R x i) ∧
      (∀ y ∈ inIdx r, R i y) ∧ ∀ x ∈ inIdx l, ∀ y ∈ inIdx r, R x y := by
  simp only [inIdx, List.pairwise_append, List.pairwise_cons, List.mem_cons]
  constructor
  · rintro ⟨h1, ⟨h2, h3⟩, h4⟩
    exact ⟨h1, h3, fun x hx => (h4 x hx i (Or.inl rfl)),
      h2, fun x hx y hy => h4 x hx y (Or.inr hy)⟩
  · rintro ⟨h1, h2, h3, h4, h5⟩
    refine ⟨h1, ⟨h4, h2⟩, ?_⟩
    rintro x hx y (rfl | hy)
    · exact h3 x hx
    · exact h5 x hx y hy

lemma idxOf_mem {t : ITree} {j : Nat} (h : idxOf t = some j) : j ∈ inIdx t := by
  cases t with
  | nil => simp [idxOf] at h
  | node l i v hh r =>
    have : i = j := by simpa [idxOf] using h
    simp [inIdx, this]

lemma inIdx_ne_nil {t : ITree} (h : t ≠ .nil) : inIdx t ≠ [] := by
  cases t with
  | nil => exact absurd rfl h
  | node l i v hh r => simp [inIdx]

lemma inIdx_head : ∀ (t : ITree), t ≠ .nil → (inIdx t).head? = some (firstI t) := by
  intro t
  induction t with
  | nil => intro h; exact absurd rfl h
  | node l i v h r ihl ihr =>
    intro _
    cases l with
    | nil => simp [inIdx, firstI]
    | node ll li lv lh lr =>
      have hx := ihl (by simp)
      have h1 : inIdx (ITree.node (ITree.node ll li lv lh lr) i v h r) =
          inIdx (ITree.node ll li lv lh lr) ++ i :: inIdx r := rfl
      rw [h1, List.head?_append, hx]
      simp [firstI, Option.or]

lemma inIdx_getLast (t : ITree) (h : t ≠ .nil) :
    (inIdx t).getLast? = some (lastI t) := by
  have hm : mirrorI t ≠ .nil := by
    cases t with
    | nil => exact absurd rfl h
    | node l i v hh r => simp [mirrorI]
  have := inIdx_head (mirrorI t) hm
  rw [inIdx_mirror, firstI_mirror] at this
  rw [← List.head?_reverse]
  exact this

lemma lmost_mono {s : Store} : ∀ (f g i x : Nat), f ≤ g →
    lmost s i f = some x → lmost s i g = some x := by
  intro f
  induction f with
  | zero =>
    intro g i x _ h0
    simp [lmost] at h0
  | succ f ih =>
    intro g i x hfg h0
    cases g with
    | zero => omega
    | succ g =>
      simp only [lmost] at h0 ⊢
      cases hr : read s i with
      | none =>
        rw [hr] at h0
        exact Option.noConfusion h0
      | some n =>
        rw [hr] at h0
        have h0' : (match n.left with
            | none => some i
            | some j => lmost s j f) = some x := h0
        show (match n.left with
            | none => some i
            | some j => lmost s j g) = some x
        cases hl : n.left with
        | none =>
          rw [hl] at h0'
          exact h0'
        | some j =>
          rw [hl] at h0'
          exact ih g j x (by omega) h0'


lemma upnext_mono {s : Store} : ∀ (f g last : Nat) (cur : Option Nat) (res : Option Nat),
    f ≤ g → upnext s last cur f = some res → upnext s last cur g = some res := by
  intro f
  induction f with
  | zero =>
    intro g last cur res _ h0
    cases cur <;> simp [upnext] at h0
  | succ f ih =>
    intro g last cur res hfg h0
    cases g with
    | zero => omega
    | succ g =>
      cases cur with
      | none => simpa [upnext] using h0
      | some c =>
        simp only [upnext] at h0 ⊢
        cases hr : read s c with
        | none =>
          rw [hr] at h0
          exact Option.noConfusion h0
        | some n =>
          rw [hr] at h0
          have h0' : (if n.left = some last then some (some c)
              else upnext s c n.parent f) = some res := h0
          show (if n.left = some last then some (some c)
              else upnext s c n.parent g) = some res
          by_cases hc : n.left = some last
          · rw [if_pos hc] at h0'
            rw [if_pos hc]
            exact h0'
          · rw [if_neg hc] at h0'
            rw [if_neg hc]
            exact ih g c n.parent res (by omega) h0'


lemma lmost_spec {s : Store} : ∀ (t : ITree) (p : Option Nat) (i : Nat),
    repb s p t = true → idxOf t = some i →
    lmost s i (isize t) = some (firstI t) := by
  intro t
  induction t with
  | nil =>
    intro p i _ h0
    simp [idxOf] at h0
  | node l i0 v h r ihl ihr =>
    intro p i hrep hidx
    have hii : i = i0 := by
      have := hidx
      simp [idxOf] at this
      omega
    subst hii
    obtain ⟨hread, hrl, hrr⟩ := repb_node hrep
    cases l with
    | nil =>
      have hfuel : isize (ITree.node .nil i v h r) = isize r + 1 := by
        simp only [isize]
        omega
      rw [hfuel]
      simp [lmost, hread, idxOf, firstI]
    | node ll li lv lh lr =>
      have hrec := ihl (some i) li hrl (by simp [idxOf])
      have hfuel : ∃ g, isize (ITree.node (ITree.node ll li lv lh lr) i v h r) = g + 1 ∧
          isize (ITree.node ll li lv lh lr) ≤ g := by
        refine ⟨isize (ITree.node ll li lv lh lr) + isize r, by simp [isize]; omega, by omega⟩
      obtain ⟨g, hg1, hg2⟩ := hfuel
      rw [hg1]
      simp only [lmost, hread, idxOf]
      have := lmost_mono (isize (ITree.node ll li lv lh lr)) g li
        (firstI (ITree.node ll li lv lh lr)) hg2 hrec
      rw [this]
      simp [firstI]

lemma upnext_from_last {s : Store} : ∀ (t : ITree) (p : Option Nat) (rt f : Nat)
    (res : Option Nat),
    repb s p t = true → (inIdx t).Nodup → idxOf t = some rt →
    upnext s rt p f = some res →
    ∃ n : NodeR, read s (lastI t) = some n ∧ n.right = none ∧
      upnext s (lastI t) n.parent (f + isize t) = some res := by
  intro t
  induction t with
  | nil =>
    intro p rt f res _ _ h0 _
    simp [idxOf] at h0
  | node l i v h r ihl ihr =>
    intro p rt f res hrep hnd hidx hup
    have hii : i = rt := by
      have := hidx
      simp [idxOf] at this
      omega
    subst rt
    obtain ⟨hread, hrl, hrr⟩ := repb_node hrep
    obtain ⟨hndl, hndr, hxl, hxr, hcross⟩ := pairwise_inIdx.mp hnd
    cases r with
    | nil =>
      refine ⟨⟨p, idxOf l, none, h, v⟩, by simpa [idxOf] using hread, rfl, ?_⟩
      exact upnext_mono f (f + isize (ITree.node l i v h .nil)) i p res (by omega) hup
    | node rl ri rv rh rr =>
      have hstep : upnext s ri (some i) (f + 1) = some res := by
        simp only [upnext, hread]
        have hne : ¬(idxOf l = some ri) := by
          intro hcon
          have hri : ri ∈ inIdx (ITree.node rl ri rv rh rr) := by simp [inIdx]
          cases l with
          | nil => simp [idxOf] at hcon
          | node al ai av ah ar =>
            have hai : ai = ri := by simpa [idxOf] using hcon
            have hmem : ai ∈ inIdx (ITree.node al ai av ah ar) := by simp [inIdx]
            exact absurd (hcross ai hmem ri hri) (by omega)
        rw [if_neg hne]
        exact hup
      obtain ⟨n, hn1, hn2, hn3⟩ :=
        ihr (some i) ri (f + 1) res hrr hndr (by simp [idxOf]) hstep
      refine ⟨n, by simpa [lastI] using hn1, hn2, ?_⟩
      have hsz : f + 1 + isize (ITree.node rl ri rv rh rr) ≤
          f + isize (ITree.node l i v h (ITree.node rl ri rv rh rr)) := by
        simp [isize]
        omega
      have hgoal := upnext_mono (f + 1 + isize (ITree.node rl ri rv rh rr))
        (f + isize (ITree.node l i v h (ITree.node rl ri rv rh rr)))
        (lastI (ITree.node rl ri rv rh rr)) n.parent res hsz hn3
      simpa [lastI] using hgoal

lemma inIdx_length (t : ITree) : (inIdx t).length = isize t := by
  induction t with
  | nil => rfl
  | node l i v h r ihl ihr =>
    simp only [inIdx, isize, List.length_append, List.length_cons, ihl, ihr]
    omega

lemma next_chain {s : Store} : ∀ (t : ITree) (p : Option Nat) (F : Nat),
    repb s p t = true → (inIdx t).Nodup → isize t + 1 ≤ F →
    List.Chain' (fun a b => nextIdx s a F = some (some b)) (inIdx t) := by
  intro t
  induction t with
  | nil =>
    intro p F _ _ _
    simp [inIdx]
  | node l i v h r ihl ihr =>
    intro p F hrep hnd hF
    obtain ⟨hread, hrl, hrr⟩ := repb_node hrep
    obtain ⟨hndl, hndr, hxl, hxr, hcross⟩ := pairwise_inIdx.mp hnd
    have hF2 : isize l + 1 + isize r + 1 ≤ F := by
      simpa [isize] using hF
    have hchl : List.Chain' (fun a b => nextIdx s a F = some (some b)) (inIdx l) :=
      ihl (some i) F hrl hndl (by omega)
    have hchr : List.Chain' (fun a b => nextIdx s a F = some (some b)) (inIdx r) :=
      ihr (some i) F hrr hndr (by omega)
    show List.Chain' _ (inIdx l ++ i :: inIdx r)
    rw [List.chain'_append]
    refine ⟨hchl, ?_, ?_⟩
    · rw [List.chain'_cons']
      refine ⟨?_, hchr⟩
      intro y hy
      cases r with
      | nil => simp [inIdx] at hy
      | node rl ri rv rh rr =>
        have hhd := inIdx_head (ITree.node rl ri rv rh rr) (by simp)
        rw [hhd] at hy
        have hyy : firstI (ITree.node rl ri rv rh rr) = y := by
          simpa using hy
        subst hyy
        have hlm := lmost_spec (ITree.node rl ri rv rh rr) (some i) ri hrr (by simp [idxOf])
        have hlm2 := lmost_mono (isize (ITree.node rl ri rv rh rr)) F ri
          (firstI (ITree.node rl ri rv rh rr)) (by simp only [isize] at hF2 ⊢; omega) hlm
        simp only [nextIdx, hread]
        show Option.map some (lmost s ri F) = some (some (firstI (ITree.node rl ri rv rh rr)))
        rw [hlm2]
        rfl
    · intro x hx y hy
      have hyy : i = y := by
        simpa using hy
      subst hyy
      cases l with
      | nil => simp [inIdx] at hx
      | node ll li lv lh lr =>
        have hgl := inIdx_getLast (ITree.node ll li lv lh lr) (by simp)
        rw [hgl] at hx
        have hxx : lastI (ITree.node ll li lv lh lr) = x := by
          simpa using hx
        subst hxx
        have hstart : upnext s li (some i) 1 = some (some i) := by
          show (match read s i with
            | none => none
            | some n => if n.left = some li then some (some i)
                else upnext s i n.parent 0) = some (some i)
          rw [hread]
          simp [idxOf]
        obtain ⟨n, hn1, hn2, hn3⟩ := upnext_from_last (ITree.node ll li lv lh lr)
          (some i) li 1 (some i) hrl hndl (by simp [idxOf]) hstart
        simp only [nextIdx, hn1, hn2]
        exact upnext_mono (1 + isize (ITree.node ll li lv lh lr)) F
          (lastI (ITree.node ll li lv lh lr)) n.parent (some i)
          (by simp only [isize] at hF2 ⊢; omega) hn3

lemma next_last_none {s : Store} (t : ITree) (rt F : Nat)
    (hrep : repb s none t = true) (hnd : (inIdx t).Nodup)
    (hidx : idxOf t = some rt) (hF : isize t + 1 ≤ F) :
    nextIdx s (lastI t) F = some none := by
  have hstart : upnext s rt none 1 = some none := rfl
  obtain ⟨n, hn1, hn2, hn3⟩ := upnext_from_last t none rt 1 none hrep hnd hidx hstart
  simp only [nextIdx, hn1, hn2]
  exact upnext_mono (1 + isize t) F (lastI t) n.parent none (by omega) hn3

lemma chain_and {R S : Nat → Nat → Prop} : ∀ (L : List Nat),
    List.Chain' R L → List.Chain' S L → List.Chain' (fun a b => R a b ∧ S a b) L := by
  intro L
  induction L with
  | nil =>
    intro _ _
    simp
  | cons a L ih =>
    intro h1 h2
    rw [List.chain'_cons'] at h1 h2 ⊢
    exact ⟨fun y hy => ⟨h1.1 y hy, h2.1 y hy⟩, ih h1.2 h2.2⟩

lemma prevTrace_eq {s : Store} {F : Nat} : ∀ (M : List Nat) (a : Nat) (M2 : List Nat),
    List.Chain' (fun x y => prevIdx s x F = some (some y)) M →
    M = a :: M2 → prevTrace s F a M2.length = M := by
  intro M
  induction M with
  | nil =>
    intro a M2 _ h
    exact absurd h (by simp)
  | cons b bs ih =>
    intro a M2 hch heq
    injection heq with e1 e2
    subst e1
    subst e2
    cases bs with
    | nil => rfl
    | cons c cs =>
      rw [List.chain'_cons] at hch
      obtain ⟨hac, hch2⟩ := hch
      show prevTrace s F b (cs.length + 1) = b :: c :: cs
      simp only [prevTrace, hac]
      rw [ih c cs hch2 rfl]

lemma rmost_mono {s : Store} (f g i x : Nat) (hfg : f ≤ g)
    (h0 : rmost s i f = some x) : rmost s i g = some x := by
  rw [rmost_mirror] at h0 ⊢
  exact lmost_mono f g i x hfg h0

lemma rmost_spec {s : Store} (t : ITree) (p : Option Nat) (i : Nat)
    (hrep : repb s p t = true) (hidx : idxOf t = some i) :
    rmost s i (isize t) = some (lastI t) := by
  have hx := lmost_spec (s := mirrorS s) (mirrorI t) p i ((repb_mirror s t p).mpr hrep)
    (by rw [idxOf_mirror]; exact hidx)
  rw [isize_mirror, firstI_mirror] at hx
  rw [rmost_mirror]
  exact hx

/-- Claim C9: on any store holding a BST-ordered linked tree, `next` of
the right-most node and `prev` of the left-most node both return null;
`next` and `prev` are mutually inverse along the in-order sequence (for
every adjacent in-order pair `a, b`, `next a = b` and `prev b = a`); and
applying `prev` n−1 times starting from the maximum visits exactly the
linked nodes, in reverse in-order, ending at the minimum. -/
theorem claim_C9 (s : Store) (t : ITree) (rt F : Nat)
    (hrep : repb s none t = true) (hnd : (inIdx t).Nodup)
    (hbst : (ivals t).Pairwise (· < ·))
    (hidx : idxOf t = some rt) (hF : isize t + 1 ≤ F) :
    nextIdx s (lastI t) F = some none ∧
    prevIdx s (firstI t) F = some none ∧
    List.Chain' (fun a b => nextIdx s a F = some (some b) ∧
      prevIdx s b F = some (some a)) (inIdx t) ∧
    prevTrace s F (lastI t) (isize t - 1) = (inIdx t).reverse ∧
    (∀ j, j ∈ prevTrace s F (lastI t) (isize t - 1) ↔ j ∈ inIdx t) ∧
    (prevTrace s F (lastI t) (isize t - 1)).getLast? = some (firstI t) := by
  have hne : t ≠ .nil := by
    intro h0
    rw [h0] at hidx
    simp [idxOf] at hidx
  have hrepm : repb (mirrorS s) none (mirrorI t) = true := (repb_mirror s t none).mpr hrep
  have hndm : (inIdx (mirrorI t)).Nodup := by
    rw [inIdx_mirror]
    exact List.nodup_reverse.mpr hnd
  have hidxm : idxOf (mirrorI t) = some rt := by
    rw [idxOf_mirror]
    exact hidx
  have hFm : isize (mirrorI t) + 1 ≤ F := by
    rw [isize_mirror]
    exact hF
  have hA : nextIdx s (lastI t) F = some none := next_last_none t rt F hrep hnd hidx hF
  have hB : prevIdx s (firstI t) F = some none := by
    have hx := next_last_none (s := mirrorS s) (mirrorI t) rt F hrepm hndm hidxm hFm
    rw [lastI_mirror] at hx
    rw [prevIdx_mirror]
    exact hx
  have hCn : List.Chain' (fun a b => nextIdx s a F = some (some b)) (inIdx t) :=
    next_chain t none F hrep hnd hF
  have hCm : List.Chain' (fun a b => nextIdx (mirrorS s) a F = some (some b))
      ((inIdx t).reverse) := by
    have hx := next_chain (s := mirrorS s) (mirrorI t) none F hrepm hndm hFm
    rwa [inIdx_mirror] at hx
  have hCp : List.Chain' (fun a b => prevIdx s b F = some (some a)) (inIdx t) := by
    rw [List.chain'_reverse] at hCm
    refine hCm.imp ?_
    intro a b hab
    rw [prevIdx_mirror]
    exact hab
  have hC := chain_and (inIdx t) hCn hCp
  have hQrev : List.Chain' (fun x y => prevIdx s x F = some (some y))
      ((inIdx t).reverse) := by
    rw [List.chain'_reverse]
    refine hCp.imp ?_
    intro a b hab
    exact hab
  obtain ⟨M2, hM2⟩ : ∃ M2, (inIdx t).reverse = lastI t :: M2 := by
    cases hrl : (inIdx t).reverse with
    | nil => exact absurd (List.reverse_eq_nil_iff.mp hrl) (inIdx_ne_nil hne)
    | cons a M2 =>
      have hh : (inIdx t).reverse.head? = some a := by
        rw [hrl]
        rfl
      rw [List.head?_reverse, inIdx_getLast t hne] at hh
      have ha : lastI t = a := by simpa using hh
      refine ⟨M2, ?_⟩
      rw [ha]
  have hlen : M2.length = isize t - 1 := by
    have h1 := congrArg List.length hM2
    simp only [List.length_reverse, inIdx_length, List.length_cons] at h1
    omega
  have hD : prevTrace s F (lastI t) (isize t - 1) = (inIdx t).reverse := by
    rw [← hlen]
    exact prevTrace_eq ((inIdx t).reverse) (lastI t) M2 hQrev hM2
  refine ⟨hA, hB, hC, hD, ?_, ?_⟩
  · intro j
    rw [hD]
    simp
  · rw [hD, List.getLast?_reverse]
    exact inIdx_head t hne

/-- A concrete 3-node store: node 1 is the root (value 5), node 0 its
left child (value 3), node 2 its right child (value 7). -/
def sW : Store :=
  [⟨some 1, none, none, 1, 3⟩, ⟨none, some 0, some 2, 2, 5⟩, ⟨some 1, none, none, 1, 7⟩]

/-- The tree shape held by `sW`. -/
def tW : ITree := .node (.node .nil 0 3 1 .nil) 1 5 2 (.node .nil 2 7 1 .nil)

/-- Witness for C9 on the concrete 3-node store. -/
theorem claim_C9_witness :
    (repb sW none tW = true ∧ (inIdx tW).Nodup ∧ (ivals tW).Pairwise (· < ·) ∧
      idxOf tW = some 1 ∧ isize tW + 1 ≤ 4) ∧
    (nextIdx sW (lastI tW) 4 = some none ∧
    prevIdx sW (firstI tW) 4 = some none ∧
    List.Chain' (fun a b => nextIdx sW a 4 = some (some b) ∧
      prevIdx sW b 4 = some (some a)) (inIdx tW) ∧
    prevTrace sW 4 (lastI tW) (isize tW - 1) = (inIdx tW).reverse ∧
    (∀ j, j ∈ prevTrace sW 4 (lastI tW) (isize tW - 1) ↔ j ∈ inIdx tW) ∧
    (prevTrace sW 4 (lastI tW) (isize tW - 1)).getLast? = some (firstI tW)) :=
  ⟨⟨by decide, by decide, by decide, by decide, by decide⟩,
    claim_C9 sW tW 1 4 (by decide) (by decide) (by decide) (by decide) (by decide)⟩

/-- Claim C10: incrementing the end (null) iterator leaves it at end;
decrementing the end iterator reloads the root and walks right-most,
yielding the maximum linked node on a non-empty tree, and stays at end
when the root is null. -/
theorem claim_C10 (s : Store) (t : ITree) (rt F : Nat)
    (hrep : repb s none t = true) (hidx : idxOf t = some rt)
    (hF : isize t ≤ F) :
    (∀ f : Nat, iterInc s none f = some none) ∧
    iterDec s (some rt) none F = some (some (lastI t)) ∧
    (∀ (s2 : Store) (f : Nat), iterDec s2 none none f = some none) := by
  refine ⟨fun f => rfl, ?_, fun s2 f => rfl⟩
  have h1 := rmost_spec t none rt hrep hidx
  have h2 := rmost_mono (isize t) F rt (lastI t) hF h1
  simp only [iterDec]
  rw [h2]
  rfl

/-- Witness for C10 on the concrete 3-node store. -/
theorem claim_C10_witness :
    (repb sW none tW = true ∧ idxOf tW = some 1 ∧ isize tW ≤ 4) ∧
    ((∀ f : Nat, iterInc sW none f = some none) ∧
    iterDec sW (some 1) none 4 = some (some (lastI tW)) ∧
    (∀ (s2 : Store) (f : Nat), iterDec s2 none none f = some none)) :=
  ⟨⟨by decide, by decide, by decide⟩,
    claim_C10 sW tW 1 4 (by decide) (by decide) (by decide)⟩

/-! ### clear: the recursive pre-order walk with caller-mutation tolerance -/

/-- The recursive call of `clear_impl` on a captured child pointer:
nothing on a null local, otherwise the walk on the child. -/
def clearChild (visit : Store → Nat → Store) (s : Store) (o : Option Nat) (f : Nat) :
    Store × List Nat :=
  match o with
  | none => (s, [])
  | some j => clearWalk visit s j f

lemma clearWalk_unfold (visit : Store → Nat → Store) (s : Store) (i f : Nat) :
    clearWalk visit s i (f + 1) =
      ((clearChild visit
          (clearChild visit (visit s i) ((read s i).bind (fun n => n.left)) f).1
          ((read s i).bind (fun n => n.right)) f).1,
        i :: ((clearChild visit (visit s i) ((read s i).bind (fun n => n.left)) f).2 ++
          (clearChild visit
            (clearChild visit (visit s i) ((read s i).bind (fun n => n.left)) f).1
            ((read s i).bind (fun n => n.right)) f).2)) := by
  cases hl : (read s i).bind (fun n => n.left) with
  | none =>
    cases hr : (read s i).bind (fun n => n.right) with
    | none => simp [clearWalk, clearChild, hl, hr]
    | some j2 => simp [clearWalk, clearChild, hl, hr]
  | some j1 =>
    cases hr : (read s i).bind (fun n => n.right) with
    | none => simp [clearWalk, clearChild, hl, hr]
    | some j2 => simp [clearWalk, clearChild, hl, hr]

lemma repb_frame {s s2 : Store} : ∀ (t : ITree) (p : Option Nat),
    repb s p t = true → (∀ j, j ∈ inIdx t → read s2 j = read s j) →
    repb s2 p t = true := by
  intro t
  induction t with
  | nil => intro p _ _; rfl
  | node l i v h r ihl ihr =>
    intro p hrep hagree
    obtain ⟨hread, hrl, hrr⟩ := repb_node hrep
    have h1 : read s2 i = some ⟨p, idxOf l, idxOf r, h, v⟩ := by
      rw [hagree i (by simp [inIdx])]
      exact hread
    simp only [repb, Bool.and_eq_true, beq_iff_eq]
    refine ⟨⟨h1, ihl (some i) hrl ?_⟩, ihr (some i) hrr ?_⟩
    · intro j hj
      exact hagree j (by simp [inIdx, hj])
    · intro j hj
      exact hagree j (by simp [inIdx, hj])

lemma preIdx_perm (t : ITree) : (preIdx t).Perm (inIdx t) := by
  induction t with
  | nil => rfl
  | node l i v h r ihl ihr =>
    show (i :: (preIdx l ++ preIdx r)).Perm (inIdx l ++ i :: inIdx r)
    have h1 : (preIdx l ++ preIdx r).Perm (inIdx l ++ inIdx r) := ihl.append ihr
    exact (h1.cons i).trans List.perm_middle.symm

lemma clearChild_spec {visit : Store → Nat → Store}
    (hloc : ∀ (s2 : Store) (i j : Nat), j ≠ i → read (visit s2 i) j = read s2 j) :
    ∀ (t : ITree) (s : Store) (p : Option Nat) (f : Nat),
    repb s p t = true → (inIdx t).Nodup → isize t ≤ f →
    (clearChild visit s (idxOf t) f).2 = preIdx t ∧
    ∀ j, j ∉ inIdx t → read (clearChild visit s (idxOf t) f).1 j = read s j := by
  intro t
  induction t with
  | nil =>
    intro s p f _ _ _
    exact ⟨rfl, fun j _ => rfl⟩
  | node l i v h r ihl ihr =>
    intro s p f hrep hnd hsz
    obtain ⟨hread, hrl, hrr⟩ := repb_node hrep
    obtain ⟨hndl, hndr, hxl, hxr, hcross⟩ := pairwise_inIdx.mp hnd
    cases f with
    | zero =>
      exfalso
      simp only [isize] at hsz
      omega
    | succ f =>
      have hszl : isize l ≤ f := by
        simp only [isize] at hsz
        omega
      have hszr : isize r ≤ f := by
        simp only [isize] at hsz
        omega
      have hl_ptr : (read s i).bind (fun n => n.left) = idxOf l := by
        rw [hread]
        rfl
      have hr_ptr : (read s i).bind (fun n => n.right) = idxOf r := by
        rw [hread]
        rfl
      have hstep := clearWalk_unfold visit s i f
      rw [hl_ptr, hr_ptr] at hstep
      have hagree1 : ∀ j, j ∈ inIdx l → read (visit s i) j = read s j := by
        intro j hj
        exact hloc s i j (hxl j hj)
      have hrl1 : repb (visit s i) (some i) l = true := repb_frame l (some i) hrl hagree1
      obtain ⟨htr_l, hfr_l⟩ := ihl (visit s i) (some i) f hrl1 hndl hszl
      have hagree2 : ∀ j, j ∈ inIdx r →
          read (clearChild visit (visit s i) (idxOf l) f).1 j = read s j := by
        intro j hj
        have hjl : j ∉ inIdx l := fun hj2 => (hcross j hj2 j hj) rfl
        have hji : j ≠ i := fun hj2 => (hxr j hj) hj2.symm
        rw [hfr_l j hjl]
        exact hloc s i j hji
      have hrr1 : repb (clearChild visit (visit s i) (idxOf l) f).1 (some i) r = true :=
        repb_frame r (some i) hrr hagree2
      obtain ⟨htr_r, hfr_r⟩ :=
        ihr (clearChild visit (visit s i) (idxOf l) f).1 (some i) f hrr1 hndr hszr
      constructor
      · show (clearWalk visit s i (f + 1)).2 = _
        rw [hstep]
        show i :: ((clearChild visit (visit s i) (idxOf l) f).2 ++
          (clearChild visit (clearChild visit (visit s i) (idxOf l) f).1
            (idxOf r) f).2) = _
        rw [htr_l, htr_r]
        rfl
      · intro j hj
        have hji : j ≠ i := by
          intro hj2
          exact hj (by simp [inIdx, hj2])
        have hjl : j ∉ inIdx l := fun hj2 => hj (by simp [inIdx, hj2])
        have hjr : j ∉ inIdx r := fun hj2 => hj (by simp [inIdx, hj2])
        show read (clearWalk visit s i (f + 1)).1 j = read s j
        rw [hstep]
        show read (clearChild visit (clearChild visit (visit s i) (idxOf l) f).1
          (idxOf r) f).1 j = read s j
        rw [hfr_r j hjr, hfr_l j hjl]
        exact hloc s i j hji

/-- Claim C8: on a non-empty tree, `clear(visit)` invokes `visit` exactly
once per linked node, in pre-order (node before its subtrees, left
subtree before right), and the walk reads the left/right child pointers
into locals BEFORE visiting, never after — modelled by proving the visit
order correct for EVERY visit callback that may corrupt the visited
record arbitrarily (the walk would read corrupted pointers if it re-read
them after the visit).  Afterwards the tree drops its root and resets
`size` to 0, and `find` of any value returns not-found. -/
theorem claim_C8 (s : Store) (t : ITree) (rt f : Nat)
    (visit : Store → Nat → Store) (T : AvlT)
    (hrep : repb s none t = true) (hnd : (inIdx t).Nodup)
    (hloc : ∀ (s2 : Store) (i j : Nat), j ≠ i → read (visit s2 i) j = read s2 j)
    (hidx : idxOf t = some rt) (hf : isize t ≤ f) (hroot : T.root ≠ .nil) :
    (clearWalk visit s rt f).2 = preIdx t ∧
    (preIdx t).Perm (inIdx t) ∧
    (clearWalk visit s rt f).2.Nodup ∧
    (∀ j, j ∈ (clearWalk visit s rt f).2 ↔ j ∈ inIdx t) ∧
    (∀ j, (clearWalk visit s rt f).2.count j ≤ 1) ∧
    clear T = ⟨.nil, 0⟩ ∧
    (∀ v, find (clear T).root v = none) := by
  have hx := clearChild_spec hloc t s none f hrep hnd hf
  have htr : (clearWalk visit s rt f).2 = preIdx t := by
    have hy := hx.1
    rw [hidx] at hy
    exact hy
  have hperm := preIdx_perm t
  have hnodup : (clearWalk visit s rt f).2.Nodup := by
    rw [htr]
    exact hperm.nodup_iff.mpr hnd
  have hclear : clear T = ⟨.nil, 0⟩ := by
    cases hT : T.root with
    | nil => exact absurd hT hroot
    | node a b c d => simp [clear, hT]
  refine ⟨htr, hperm, hnodup, ?_, ?_, hclear, ?_⟩
  · intro j
    rw [htr]
    exact hperm.mem_iff
  · intro j
    exact List.nodup_iff_count_le_one.mp hnodup j
  · intro v
    rw [hclear]
    rfl

/-- Witness for C8 on the concrete 3-node store with an identity visit
callback (any node-local corruption is allowed by the theorem). -/
theorem claim_C8_witness :
    (repb sW none tW = true ∧ (inIdx tW).Nodup ∧
      (∀ (s2 : Store) (i j : Nat), j ≠ i →
        read ((fun s3 (_ : Nat) => s3) s2 i) j = read s2 j) ∧
      idxOf tW = some 1 ∧ isize tW ≤ 3 ∧ (buildU [5]).root ≠ .nil) ∧
    ((clearWalk (fun s3 (_ : Nat) => s3) sW 1 3).2 = preIdx tW ∧
    (preIdx tW).Perm (inIdx tW) ∧
    (clearWalk (fun s3 (_ : Nat) => s3) sW 1 3).2.Nodup ∧
    (∀ j, j ∈ (clearWalk (fun s3 (_ : Nat) => s3) sW 1 3).2 ↔ j ∈ inIdx tW) ∧
    (∀ j, (clearWalk (fun s3 (_ : Nat) => s3) sW 1 3).2.count j ≤ 1) ∧
    clear (buildU [5]) = ⟨.nil, 0⟩ ∧
    (∀ v, find (clear (buildU [5])).root v = none)) :=
  ⟨⟨by decide, by decide, fun s2 i j hne => rfl, by decide, by decide, by decide⟩,
    claim_C8 sW tW 1 3 (fun s3 (_ : Nat) => s3) (buildU [5]) (by decide) (by decide)
      (fun s2 i j hne => rfl) (by decide) (by decide) (by decide)⟩

end Tinystl
